import Mathlib

/-
Verification of `monte_carlo_simulator/die_game_analyzer.py`.

Shallow embedding conventions:
* Faces are values of an abstract type `α` (`ℤ` in concrete instances); the
  source allows numeric or string labels.
* Weights (Python floats) are modelled as `ℚ`.
* Randomness is modelled by an explicit stream `u : ℕ → ℚ` of uniform draws
  in `[0, 1)`; `np.random.choice(faces, p = weights / sum(weights))` applied
  to the draw `r` selects the first index `i` with
  `r < (w 0 + ... + w i) / total`, i.e. `r * total < w 0 + ... + w i`.
* A Python method that may both raise and mutate its object is embedded as a
  function returning `Except PyErr β × State`, where the state component is
  the object's state at the moment the method returns or raises; the
  embedding mirrors the source line by line, so an early `raise` carries the
  state as it was at that point in the body.
* The pandas dataframes are embedded as lists: a die's `__df` as its
  `face → weight` rows in order, a game's wide results table as a list of
  rows (one per roll, one entry per die).
-/

/-- Error classes raised by the Python code (`TypeError`, `ValueError`,
`IndexError`), the error numpy raises inside `np.random.choice` when the
probability vector is degenerate, and the spec's `InvalidState`, which the
source never raises. -/
inductive PyErr where
  | typeError
  | valueError
  | indexError
  | numpyValueError
  | invalidState
  deriving DecidableEq, Repr

/-- Argument to `change_weight`'s `float(new_weight)` cast: either castable
to a real value `q` or not castable (the cast raises). -/
inductive WeightInput where
  | castable (q : ℚ)
  | uncastable
  deriving DecidableEq

/-- Helper for `uniqueList`: distinct elements in order of first appearance,
skipping the ones already in `seen`. -/
def uniqueAux [DecidableEq α] : List α → List α → List α
  | [], _ => []
  | x :: xs, seen =>
    if x ∈ seen then uniqueAux xs seen else x :: uniqueAux xs (x :: seen)

/-- `pd.unique`: the distinct values of a list in order of first appearance. -/
def uniqueList [DecidableEq α] (l : List α) : List α :=
  uniqueAux l []

/-- Index selection of `np.random.choice`: the smallest `i` such that `t` is
below the sum of the first `i + 1` weights (`ws.length` if there is none). -/
def chooseIdx : List ℚ → ℚ → ℕ
  | [], _ => 0
  | w :: rest, t => if t < w then 0 else chooseIdx rest (t - w) + 1

/-- One draw of `np.random.choice(fs, p = ws / ws.sum)` at the uniform draw
`r ∈ [0, 1)`: pick the first index whose cumulative probability exceeds `r`;
comparing `r` against cumulative `w i / total` is comparing `r * total`
against cumulative `w i`. -/
def npChoice [Inhabited α] (fs : List α) (ws : List ℚ) (r : ℚ) : α :=
  fs.getD (chooseIdx ws (r * ws.sum)) default

/-- The `Die` class: its private dataframe `__df`, one `(face, weight)` row
per face, with the face column as index. -/
structure Die (α : Type) where
  df : List (α × ℚ)
  deriving DecidableEq

/-- `Die.__init__`: rejects duplicated faces (`len(faces) != len(set(faces))`
raises `ValueError`), then stores each face with weight `1.0`.  (The
`isinstance(faces, np.ndarray)` type check is outside the embedding: the
argument is already a list of face values here.) -/
def Die.init [DecidableEq α] (faces : List α) : Except PyErr (Die α) :=
  if faces.length ≠ faces.dedup.length then .error .valueError
  else .ok ⟨faces.map (fun f => (f, 1))⟩

/-- `Die.change_weight`: raises `IndexError` if the face is absent, raises
`TypeError` if the new weight is not castable to float, raises `ValueError`
if it is negative, and only then writes `__df.at[face, 'weight']`.  The
returned state is the die as of the return or raise. -/
def Die.change_weight [DecidableEq α] (d : Die α) (face : α) (new_weight : WeightInput) :
    Except PyErr Unit × Die α :=
  if face ∈ d.df.map Prod.fst then
    match new_weight with
    | .uncastable => (.error .typeError, d)
    | .castable q =>
      if q < 0 then (.error .valueError, d)
      else (.ok (), ⟨d.df.map (fun p => if p.1 = face then (p.1, q) else p)⟩)
  else (.error .indexError, d)

/-- `Die.roll`: raises `ValueError` unless `num_rolls` is a positive integer,
then draws `num_rolls` outcomes via `np.random.choice` with probabilities
`weights / sum(weights)`.  When every weight is zero the normalization
divides by zero, the probability vector is NaN, and `np.random.choice`
raises a `ValueError` of its own — modelled as `numpyValueError`.  `u` is
the stream of uniform draws consumed by numpy. -/
def Die.roll [DecidableEq α] [Inhabited α] (d : Die α) (num_rolls : ℤ) (u : ℕ → ℚ) :
    Except PyErr (List α) :=
  if num_rolls ≤ 0 then .error .valueError
  else
    let faces := d.df.map Prod.fst
    let weights := d.df.map Prod.snd
    if weights.sum = 0 then .error .numpyValueError
    else .ok ((List.range num_rolls.toNat).map (fun i => npChoice faces weights (u i)))

/-- `Die.show`: a copy of the die's dataframe. -/
def Die.show (d : Die α) : List (α × ℚ) :=
  d.df

/-- Reading the weight column of `Die.show` at a face: the weight stored with
the first row whose face matches. -/
def Die.weightOf [DecidableEq α] (d : Die α) (face : α) : Option ℚ :=
  (d.df.find? (fun p => p.1 = face)).map Prod.snd

/-- Invariant established by `Die.init` and preserved by `change_weight`:
faces are pairwise distinct and weights non-negative. -/
def Die.WF [DecidableEq α] (d : Die α) : Prop :=
  (d.df.map Prod.fst).Nodup ∧ ∀ p ∈ d.df, 0 ≤ p.2

/-- The `Game` class: its dice list and its private results dataframe
(`None` until the first play), stored wide: one row per roll, one entry per
die in dice order. -/
structure Game (α : Type) where
  dice : List (Die α)
  results : Option (List (List α))
  deriving DecidableEq

/-- `Game.__init__`: rejects an empty dice list with `ValueError`; results
start absent. (The `isinstance(dice_list, list)` check is outside the
embedding.) -/
def Game.init (dice_list : List (Die α)) : Except PyErr (Game α) :=
  if dice_list.length = 0 then .error .valueError
  else .ok ⟨dice_list, none⟩

/-- The loop body of `Game.play`: roll each die in sequence with the shared
`num_rolls`, die `i` consuming the random stream `u i`; the first raise
aborts the loop and propagates. Returns the per-die outcome columns. -/
def Game.rollDice [DecidableEq α] [Inhabited α] (num_rolls : ℤ) (u : ℕ → ℕ → ℚ) :
    List (Die α) → ℕ → Except PyErr (List (List α))
  | [], _ => .ok []
  | d :: ds, i =>
    match d.roll num_rolls (u i) with
    | .error e => .error e
    | .ok col =>
      match Game.rollDice num_rolls u ds (i + 1) with
      | .error e => .error e
      | .ok cols => .ok (col :: cols)

/-- `pd.DataFrame(rolls)` for `rolls = {i : column i}`: the wide table whose
cell `(r, i)` is `rolls[i][r]`, rows indexed `0 .. n-1`. -/
def tableOfCols [Inhabited α] (n : ℕ) (cols : List (List α)) : List (List α) :=
  (List.range n).map (fun r => cols.map (fun c => c.getD r default))

/-- `Game.play`: raises `ValueError` unless `num_rolls` is a positive
integer, rolls every die, and only after the loop finishes assigns the new
results dataframe (so a raise inside the loop leaves the previous results
in place).  The returned state is the game as of the return or raise. -/
def Game.play [DecidableEq α] [Inhabited α] (g : Game α) (num_rolls : ℤ) (u : ℕ → ℕ → ℚ) :
    Except PyErr Unit × Game α :=
  if num_rolls ≤ 0 then (.error .valueError, g)
  else
    match Game.rollDice num_rolls u g.dice 0 with
    | .error e => (.error e, g)
    | .ok cols => (.ok (), { g with results := some (tableOfCols num_rolls.toNat cols) })

/-- The `form` argument of `Game.show`: the two recognized strings and any
other string. -/
inductive Form where
  | wide
  | narrow
  | other
  deriving DecidableEq

/-- Result of `Game.show`: a wide dataframe, or the narrow (stacked) frame
whose rows are `((roll number, die number), outcome)`. -/
inductive ShowResult (α : Type) where
  | wideTable (t : List (List α))
  | narrowTable (rows : List ((ℕ × ℕ) × α))
  deriving DecidableEq

/-- `DataFrame.stack()` on the wide results table starting at roll index
`r0`: emit, row by row, one `((roll, die), outcome)` entry per cell, dice in
column order — the row-major flattening. -/
def stackRows : ℕ → List (List α) → List ((ℕ × ℕ) × α)
  | _, [] => []
  | r0, row :: rest =>
    row.enum.map (fun p => ((r0, p.1), p.2)) ++ stackRows (r0 + 1) rest

/-- `Game.show`: raises `ValueError` if no play happened yet; `'wide'`
returns a copy of the results, `'narrow'` the stacked frame with index
`(Roll Number, Die Number)` and the single `Outcome` column, anything else
raises `ValueError`. -/
def Game.show (g : Game α) (form : Form) : Except PyErr (ShowResult α) :=
  match g.results with
  | none => .error .valueError
  | some t =>
    match form with
    | .wide => .ok (.wideTable t)
    | .narrow => .ok (.narrowTable (stackRows 0 t))
    | .other => .error .valueError

/-- The `Analyzer` class: holds the wide results table obtained from
`game.show('wide')` at construction time. -/
structure Analyzer (α : Type) where
  results : List (List α)
  deriving DecidableEq

/-- `Analyzer.__init__`: `self.results = game.show('wide')`; the `ValueError`
of an unplayed game propagates.  (The `isinstance(game, Game)` check is
outside the embedding.)  `show 'wide'` only ever returns a wide table; the
narrow case below is unreachable. -/
def Analyzer.init (g : Game α) : Except PyErr (Analyzer α) :=
  match g.show Form.wide with
  | .error e => .error e
  | .ok (.wideTable t) => .ok ⟨t⟩
  | .ok (.narrowTable _) => .error .valueError

/-- `Analyzer.jackpot`: count the rows whose value set has size one
(`len(set(row)) == 1`); the size of a Python set is the number of distinct
values, i.e. the length of `dedup`. -/
def Analyzer.jackpot [DecidableEq α] (a : Analyzer α) : ℕ :=
  (a.results.filter (fun row => row.dedup.length = 1)).length

/-- `pd.unique(self.results.values.ravel())` in `face_counts_per_roll`: the
distinct outcome values of the whole snapshot, row-major, in order of first
appearance. -/
def Analyzer.unique_faces [DecidableEq α] (a : Analyzer α) : List α :=
  uniqueList a.results.flatten

/-- `Analyzer.face_counts_per_roll`: for each roll, `value_counts` of the row
reindexed against the global `unique_faces` with `fill_value = 0` — so each
output row lists, for every globally seen value in the fixed column order,
how many dice of that roll show it. -/
def Analyzer.face_counts_per_roll [DecidableEq α] (a : Analyzer α) : List (List ℕ) :=
  a.results.map (fun row => a.unique_faces.map (fun u => row.count u))

/-- Comparison used by `value_counts`: row `p` precedes row `q` when its
count is at least as large. -/
def countGE (p q : κ × ℕ) : Prop :=
  q.2 ≤ p.2

instance {κ : Type} : DecidableRel (@countGE κ) :=
  fun p q => inferInstanceAs (Decidable (q.2 ≤ p.2))

instance {κ : Type} : IsTotal (κ × ℕ) countGE :=
  ⟨fun p q => (Nat.le_total q.2 p.2).imp id id⟩

instance {κ : Type} : IsTrans (κ × ℕ) countGE :=
  ⟨fun _ _ _ h1 h2 => le_trans h2 h1⟩

/-- `Series.value_counts()`: one `(value, count)` row per distinct value,
sorted by count in descending order. -/
def valueCounts [DecidableEq κ] (l : List κ) : List (κ × ℕ) :=
  List.insertionSort countGE ((uniqueList l).map (fun k => (k, l.count k)))

/-- `Analyzer.combo_count`: key each roll by `tuple(sorted(row))` and tabulate
with `value_counts`. -/
def Analyzer.combo_count [DecidableEq α] [LinearOrder α] (a : Analyzer α) :
    List (List α × ℕ) :=
  valueCounts (a.results.map (fun row => List.insertionSort (· ≤ ·) row))

/-- `Analyzer.permutation_count`: key each roll by `tuple(row)` (die-column
order preserved) and tabulate with `value_counts`. -/
def Analyzer.permutation_count [DecidableEq α] (a : Analyzer α) :
    List (List α × ℕ) :=
  valueCounts a.results

/-
Reference-vs-copy model for the analyzer snapshot.  Pandas dataframes are
heap objects: `Game.play` binds `self.__results` to a freshly allocated
frame, `Game.show('wide')` returns `self.__results.copy()` (a freshly
allocated copy), and `Analyzer.__init__` stores what `show` returned.  The
heap is a list of tables, an address is an index, allocation appends.
-/

/-- A heap of result tables; addresses are list indices. -/
abbrev RHeap (α : Type) : Type :=
  List (List (List α))

/-- Allocate a table, returning the new heap and the fresh address. -/
def RHeap.alloc (h : RHeap α) (t : List (List α)) : RHeap α × ℕ :=
  (List.append h [t], List.length h)

/-- Address lookup in the heap. -/
def RHeap.lookup (h : RHeap α) (addr : ℕ) : Option (List (List α)) :=
  h[addr]?

/-- The `Game` object with its `__results` field as a heap reference. -/
structure GameRef (α : Type) where
  dice : List (Die α)
  resultsAddr : Option ℕ

/-- `Game.play` on the heap model: validate, roll all dice, then allocate
the new results frame and rebind `self.__results` to it. -/
def GameRef.playH [DecidableEq α] [Inhabited α] (g : GameRef α) (h : RHeap α)
    (num_rolls : ℤ) (u : ℕ → ℕ → ℚ) : Except PyErr Unit × GameRef α × RHeap α :=
  if num_rolls ≤ 0 then (.error .valueError, g, h)
  else
    match Game.rollDice num_rolls u g.dice 0 with
    | .error e => (.error e, g, h)
    | .ok cols =>
      let p := h.alloc (tableOfCols num_rolls.toNat cols)
      (.ok (), { g with resultsAddr := some p.2 }, p.1)

/-- `Game.show('wide')` on the heap model: raise `ValueError` when no play
happened, otherwise allocate `self.__results.copy()` and return its
address.  A dangling address cannot arise from the operations here; it is
mapped to `ValueError` for totality. -/
def GameRef.showWideH (g : GameRef α) (h : RHeap α) : Except PyErr (ℕ × RHeap α) :=
  match g.resultsAddr with
  | none => .error .valueError
  | some addr =>
    match h.lookup addr with
    | none => .error .valueError
    | some t =>
      let p := h.alloc t
      .ok (p.2, p.1)

/-- The `Analyzer` object with `self.results` as a heap reference. -/
structure AnalyzerRef where
  resultsAddr : ℕ

/-- `Analyzer.__init__` on the heap model: store the address returned by
`game.show('wide')`. -/
def AnalyzerRef.initH (g : GameRef α) (h : RHeap α) :
    Except PyErr (AnalyzerRef × RHeap α) :=
  match g.showWideH h with
  | .error e => .error e
  | .ok (addr, h2) => .ok (⟨addr⟩, h2)

/-- Dereference the analyzer's snapshot in a given heap state. -/
def AnalyzerRef.resultsIn (an : AnalyzerRef) (h : RHeap α) : List (List α) :=
  (h.lookup an.resultsAddr).getD []

/-
Helper lemmas about the embedded pandas primitives.
-/

theorem mem_uniqueAux [DecidableEq α] (l : List α) (seen : List α) (x : α) :
    x ∈ uniqueAux l seen ↔ x ∈ l ∧ x ∉ seen := by
  induction l generalizing seen with
  | nil => simp [uniqueAux]
  | cons y ys ih =>
    simp only [uniqueAux]
    by_cases hy : y ∈ seen
    · rw [if_pos hy, ih]
      constructor
      · rintro ⟨h1, h2⟩
        exact ⟨List.mem_cons_of_mem _ h1, h2⟩
      · rintro ⟨h1, h2⟩
        rcases List.mem_cons.mp h1 with rfl | h1
        · exact absurd hy h2
        · exact ⟨h1, h2⟩
    · rw [if_neg hy]
      simp only [List.mem_cons, ih]
      constructor
      · rintro (rfl | ⟨h1, h2⟩)
        · exact ⟨Or.inl rfl, hy⟩
        · exact ⟨Or.inr h1, fun hs => h2 (Or.inr hs)⟩
      · rintro ⟨rfl | h1, h2⟩
        · exact Or.inl rfl
        · by_cases hxy : x = y
          · exact Or.inl hxy
          · exact Or.inr ⟨h1, fun hs => hs.elim hxy h2⟩

theorem nodup_uniqueAux [DecidableEq α] (l : List α) (seen : List α) :
    (uniqueAux l seen).Nodup := by
  induction l generalizing seen with
  | nil => simp [uniqueAux]
  | cons y ys ih =>
    simp only [uniqueAux]
    by_cases hy : y ∈ seen
    · rw [if_pos hy]
      exact ih seen
    · rw [if_neg hy]
      refine List.Nodup.cons ?_ (ih (y :: seen))
      intro hmem
      exact ((mem_uniqueAux ys (y :: seen) y).mp hmem).2 (List.mem_cons_self y seen)

theorem mem_uniqueList [DecidableEq α] (l : List α) (x : α) :
    x ∈ uniqueList l ↔ x ∈ l := by
  rw [uniqueList, mem_uniqueAux]
  simp

theorem nodup_uniqueList [DecidableEq α] (l : List α) : (uniqueList l).Nodup :=
  nodup_uniqueAux l []

theorem sum_map_add_nat {β : Type u} (l : List β) (f g : β → ℕ) :
    (l.map (fun x => f x + g x)).sum = (l.map f).sum + (l.map g).sum := by
  induction l with
  | nil => rfl
  | cons x xs ih =>
    simp only [List.map_cons, List.sum_cons, ih]
    omega

theorem sum_indicator_zero [DecidableEq α] (U : List α) (x : α) (hx : x ∉ U) :
    (U.map (fun u => if x = u then 1 else 0)).sum = 0 := by
  induction U with
  | nil => rfl
  | cons u us ih =>
    have hxu : x ≠ u := fun h => hx (h ▸ List.mem_cons_self u us)
    have hxs : x ∉ us := fun h => hx (List.mem_cons_of_mem _ h)
    simp [hxu, ih hxs]

theorem sum_indicator_one [DecidableEq α] (U : List α) (x : α) (hU : U.Nodup)
    (hx : x ∈ U) : (U.map (fun u => if x = u then 1 else 0)).sum = 1 := by
  induction U with
  | nil => cases hx
  | cons u us ih =>
    rcases List.mem_cons.mp hx with rfl | hxs
    · have hxs : x ∉ us := (List.nodup_cons.mp hU).1
      simp [sum_indicator_zero us x hxs]
    · have hxu : x ≠ u := fun h => (List.nodup_cons.mp hU).1 (h ▸ hxs)
      simp [hxu, ih (List.nodup_cons.mp hU).2 hxs]

theorem count_cons_split [DecidableEq α] (x u : α) (xs : List α) :
    (x :: xs).count u = xs.count u + (if x = u then 1 else 0) := by
  rw [List.count_cons]
  simp [beq_iff_eq]

theorem sum_count_eq_length [DecidableEq α] (U row : List α) (hU : U.Nodup)
    (hsub : ∀ x ∈ row, x ∈ U) :
    (U.map (fun u => row.count u)).sum = row.length := by
  induction row with
  | nil => simp
  | cons x xs ih =>
    simp only [count_cons_split]
    rw [sum_map_add_nat U (fun u => xs.count u) (fun u => if x = u then 1 else 0),
      ih (fun y hy => hsub y (List.mem_cons_of_mem _ hy)),
      sum_indicator_one U x hU (hsub x (List.mem_cons_self _ _))]
    simp

theorem count_map_eq_filter_length {β : Type u} {γ : Type v} [DecidableEq β] (f : γ → β)
    (l : List γ) (k : β) :
    (l.map f).count k = (l.filter (fun x => f x = k)).length := by
  induction l with
  | nil => rfl
  | cons x xs ih =>
    simp only [List.map_cons, count_cons_split, List.filter_cons]
    by_cases h : f x = k
    · simp [h, ih]
    · simp [h, ih]

theorem chooseIdx_spec (ws : List ℚ) (t : ℚ) (h0 : 0 ≤ t) (h1 : t < ws.sum) :
    chooseIdx ws t < ws.length ∧ 0 < ws.getD (chooseIdx ws t) 0 := by
  induction ws generalizing t with
  | nil =>
    simp only [List.sum_nil] at h1
    exact absurd h1 (not_lt.mpr h0)
  | cons w rest ih =>
    simp only [chooseIdx]
    by_cases hw : t < w
    · rw [if_pos hw]
      exact ⟨Nat.succ_pos _, lt_of_le_of_lt h0 hw⟩
    · rw [if_neg hw]
      have h0' : 0 ≤ t - w := by
        have := not_lt.mp hw
        linarith
      have h1' : t - w < rest.sum := by
        simp only [List.sum_cons] at h1
        linarith
      obtain ⟨hlt, hpos⟩ := ih (t - w) h0' h1'
      refine ⟨Nat.succ_lt_succ hlt, ?_⟩
      rw [List.getD_cons_succ]
      exact hpos

theorem npChoice_spec [DecidableEq α] [Inhabited α] (dfl : List (α × ℚ)) (r : ℚ)
    (hnodup : (dfl.map Prod.fst).Nodup) (hr0 : 0 ≤ r) (hr1 : r < 1)
    (hsum : 0 < (dfl.map Prod.snd).sum) :
    npChoice (dfl.map Prod.fst) (dfl.map Prod.snd) r ∈ dfl.map Prod.fst ∧
    ∀ f, (f, (0:ℚ)) ∈ dfl → npChoice (dfl.map Prod.fst) (dfl.map Prod.snd) r ≠ f := by
  have ht0 : 0 ≤ r * (dfl.map Prod.snd).sum := mul_nonneg hr0 (le_of_lt hsum)
  have ht1 : r * (dfl.map Prod.snd).sum < (dfl.map Prod.snd).sum :=
    mul_lt_of_lt_one_left hsum hr1
  obtain ⟨hlt, hpos⟩ := chooseIdx_spec (dfl.map Prod.snd) _ ht0 ht1
  have hif : chooseIdx (dfl.map Prod.snd) (r * (dfl.map Prod.snd).sum)
      < (dfl.map Prod.fst).length := by
    simpa using hlt
  have hval : npChoice (dfl.map Prod.fst) (dfl.map Prod.snd) r
      = (dfl.map Prod.fst)[chooseIdx (dfl.map Prod.snd) (r * (dfl.map Prod.snd).sum)] := by
    rw [npChoice, List.getD_eq_getElem _ _ hif]
  constructor
  · rw [hval]
    exact List.getElem_mem hif
  · intro f hf heq
    obtain ⟨j, hj, hdfj⟩ := List.getElem_of_mem hf
    have hjf : j < (dfl.map Prod.fst).length := by simpa using hj
    have hidf : chooseIdx (dfl.map Prod.snd) (r * (dfl.map Prod.snd).sum) < dfl.length := by
      simpa using hif
    have h1 : (dfl.map Prod.fst)[chooseIdx (dfl.map Prod.snd) (r * (dfl.map Prod.snd).sum)]
        = f := by
      rw [← hval]
      exact heq
    have h2 : (dfl.map Prod.fst)[chooseIdx (dfl.map Prod.snd) (r * (dfl.map Prod.snd).sum)]
        = (dfl.map Prod.fst)[j] := by
      rw [h1, List.getElem_map, hdfj]
    have hij : chooseIdx (dfl.map Prod.snd) (r * (dfl.map Prod.snd).sum) = j :=
      hnodup.getElem_inj_iff.mp h2
    have hopt : dfl[chooseIdx (dfl.map Prod.snd) (r * (dfl.map Prod.snd).sum)]?
        = some (f, 0) := by
      rw [hij, List.getElem?_eq_getElem hj, hdfj]
    have hval2 : dfl[chooseIdx (dfl.map Prod.snd) (r * (dfl.map Prod.snd).sum)] = (f, 0) := by
      have h3 := List.getElem?_eq_getElem hidf
      rw [hopt] at h3
      exact (Option.some.inj h3).symm
    have hw : (dfl.map Prod.snd).getD
        (chooseIdx (dfl.map Prod.snd) (r * (dfl.map Prod.snd).sum)) 0 = 0 := by
      rw [List.getD_eq_getElem _ _ (by simpa using hidf), List.getElem_map, hval2]
    rw [hw] at hpos
    exact lt_irrefl 0 hpos

theorem dedup_all_eq_single [DecidableEq α] (l : List α) (v : α) (h : ∀ x ∈ l, x = v) :
    l.dedup = [] ∨ l.dedup = [v] := by
  induction l with
  | nil => exact Or.inl rfl
  | cons x xs ih =>
    have hx : x = v := h x (List.mem_cons_self _ _)
    subst hx
    rcases ih (fun y hy => h y (List.mem_cons_of_mem _ hy)) with h0 | h1
    · by_cases hmem : x ∈ xs
      · have : x ∈ xs.dedup := List.mem_dedup.mpr hmem
        rw [h0] at this
        cases this
      · rw [List.dedup_cons_of_not_mem hmem, h0]
        exact Or.inr rfl
    · by_cases hmem : x ∈ xs
      · rw [List.dedup_cons_of_mem hmem]
        exact Or.inr h1
      · have : x ∈ xs.dedup := by
          rw [h1]
          exact List.mem_cons_self x []
        exact absurd (List.mem_dedup.mp this) hmem

theorem dedup_length_eq_one_iff [DecidableEq α] (row : List α) :
    row.dedup.length = 1 ↔ row ≠ [] ∧ ∀ x ∈ row, ∀ y ∈ row, x = y := by
  constructor
  · intro h
    obtain ⟨v, hv⟩ := List.length_eq_one.mp h
    have hmem : ∀ x ∈ row, x = v := by
      intro x hx
      have hxd : x ∈ row.dedup := List.mem_dedup.mpr hx
      rw [hv] at hxd
      simpa using hxd
    refine ⟨?_, fun x hx y hy => (hmem x hx).trans (hmem y hy).symm⟩
    rintro rfl
    rw [List.dedup_nil] at hv
    cases hv
  · rintro ⟨hne, hall⟩
    obtain ⟨v, rest, rfl⟩ := List.exists_cons_of_ne_nil hne
    have hallv : ∀ x ∈ v :: rest, x = v :=
      fun x hx => hall x hx v (List.mem_cons_self _ _)
    rcases dedup_all_eq_single _ v hallv with h0 | h1
    · have : v ∈ (v :: rest).dedup := List.mem_dedup.mpr (List.mem_cons_self _ _)
      rw [h0] at this
      cases this
    · rw [h1]
      rfl

theorem valueCounts_mem [DecidableEq κ] (l : List κ) (p : κ × ℕ)
    (hp : p ∈ valueCounts l) : p.2 = l.count p.1 ∧ p.1 ∈ l := by
  have hperm := List.perm_insertionSort countGE
    ((uniqueList l).map (fun k => (k, l.count k)))
  have hp2 : p ∈ (uniqueList l).map (fun k => (k, l.count k)) := hperm.mem_iff.mp hp
  obtain ⟨k, hk, rfl⟩ := List.mem_map.mp hp2
  exact ⟨rfl, (mem_uniqueList l k).mp hk⟩

theorem valueCounts_sum [DecidableEq κ] (l : List κ) :
    ((valueCounts l).map Prod.snd).sum = l.length := by
  have hperm := (List.perm_insertionSort countGE
    ((uniqueList l).map (fun k => (k, l.count k)))).map Prod.snd
  rw [valueCounts, hperm.sum_eq, List.map_map]
  exact sum_count_eq_length (uniqueList l) l (nodup_uniqueList l)
    (fun x hx => (mem_uniqueList l x).mpr hx)

theorem valueCounts_sorted [DecidableEq κ] (l : List κ) :
    List.Sorted countGE (valueCounts l) :=
  List.sorted_insertionSort countGE _

theorem enum_eq_range_map [Inhabited α] (row : List α) :
    row.enum = (List.range row.length).map (fun i => (i, row.getD i default)) := by
  apply List.ext_getElem
  · simp
  · intro n h1 h2
    have hn : n < row.length := by simpa using h1
    simp only [List.getElem_enum, List.getElem_map, List.getElem_range]
    rw [List.getD_eq_getElem _ _ hn]

theorem stackRows_eq_canonical [Inhabited α] (t : List (List α)) (d : ℕ) :
    (∀ row ∈ t, row.length = d) → ∀ r0 : ℕ,
    stackRows r0 t = (List.range t.length).flatMap
      (fun r => (List.range d).map
        (fun i => ((r0 + r, i), (t.getD r []).getD i default))) := by
  induction t with
  | nil =>
    intro _ r0
    simp [stackRows]
  | cons row rest ih =>
    intro hrows r0
    have hrow : row.length = d := hrows row (List.mem_cons_self _ _)
    have hrest : ∀ row2 ∈ rest, row2.length = d :=
      fun row2 h2 => hrows row2 (List.mem_cons_of_mem _ h2)
    simp only [stackRows, List.length_cons]
    rw [List.range_succ_eq_map, List.flatMap_cons, List.flatMap_map]
    congr 1
    · rw [enum_eq_range_map, hrow, List.map_map]
      apply List.map_congr_left
      intro i _
      simp
    · rw [ih hrest (r0 + 1)]
      congr 1
      funext r
      simp only [Function.comp, List.getD_cons_succ, Nat.succ_eq_add_one]
      have harith : r0 + 1 + r = r0 + (r + 1) := by omega
      rw [harith]

theorem rollDice_ok_length [DecidableEq α] [Inhabited α] (num_rolls : ℤ) (u : ℕ → ℕ → ℚ) :
    ∀ (dice : List (Die α)) (i0 : ℕ) (cols : List (List α)),
    Game.rollDice num_rolls u dice i0 = .ok cols → cols.length = dice.length := by
  intro dice
  induction dice with
  | nil =>
    intro i0 cols h
    simp only [Game.rollDice] at h
    cases h
    rfl
  | cons dd ds ih =>
    intro i0 cols h
    simp only [Game.rollDice] at h
    cases hr : dd.roll num_rolls (u i0) with
    | error e =>
      rw [hr] at h
      cases h
    | ok col =>
      rw [hr] at h
      cases hrest : Game.rollDice num_rolls u ds (i0 + 1) with
      | error e =>
        rw [hrest] at h
        cases h
      | ok cols2 =>
        rw [hrest] at h
        cases h
        simp [ih (i0 + 1) cols2 hrest]

/-- C1: for every analyzer snapshot, `face_counts_per_roll` produces one row
per roll and one column for every value of `U = unique_faces`, the set of
distinct outcome values appearing anywhere in the snapshot; the cell at
`(roll, value)` is the number of dice showing that value in that roll (`0`
when absent); the column set is the same `U` for every row; and when every
roll has `d` dice, every row of counts sums to `d`. -/
theorem C1_face_counts_per_roll [DecidableEq α] [Inhabited α] (a : Analyzer α) (d : ℕ)
    (hrows : ∀ row ∈ a.results, row.length = d) :
    a.unique_faces.Nodup ∧
    (∀ x, x ∈ a.unique_faces ↔ ∃ row ∈ a.results, x ∈ row) ∧
    a.face_counts_per_roll.length = a.results.length ∧
    (∀ fr ∈ a.face_counts_per_roll, fr.length = a.unique_faces.length) ∧
    (∀ r, r < a.face_counts_per_roll.length → ∀ j, j < a.unique_faces.length →
      (a.face_counts_per_roll.getD r []).getD j 0
        = (a.results.getD r []).count (a.unique_faces.getD j default)) ∧
    (∀ fr ∈ a.face_counts_per_roll, fr.sum = d) := by
  refine ⟨nodup_uniqueList _, ?_, ?_, ?_, ?_, ?_⟩
  · intro x
    simp only [Analyzer.unique_faces, mem_uniqueList]
    exact List.mem_flatten
  · simp [Analyzer.face_counts_per_roll]
  · intro fr hf
    simp only [Analyzer.face_counts_per_roll] at hf
    obtain ⟨row, hrowm, rfl⟩ := List.mem_map.mp hf
    simp
  · intro r hr j hj
    have hr2 : r < a.results.length := by
      simpa [Analyzer.face_counts_per_roll] using hr
    have hF : a.face_counts_per_roll.getD r []
        = a.unique_faces.map (fun v => (a.results.getD r []).count v) := by
      rw [List.getD_eq_getElem _ _ hr, List.getD_eq_getElem _ _ hr2]
      simp [Analyzer.face_counts_per_roll]
    rw [hF, List.getD_eq_getElem _ _ (by simpa using hj), List.getElem_map,
      List.getD_eq_getElem _ _ hj]
  · intro fr hf
    simp only [Analyzer.face_counts_per_roll] at hf
    obtain ⟨row, hrowm, rfl⟩ := List.mem_map.mp hf
    have hsum := sum_count_eq_length a.unique_faces row (nodup_uniqueList _)
      (fun x hx => by
        simp only [Analyzer.unique_faces, mem_uniqueList]
        exact List.mem_flatten.mpr ⟨row, hrowm, hx⟩)
    rw [hsum]
    exact hrows row hrowm

/-- Witness for C1 at the two-die snapshot `[[1, 2], [2, 2]]`: the first row
of counts sums to the number of dice. -/
theorem C1_witness :
    ((Analyzer.mk ([[1, 2], [2, 2]] : List (List ℤ))).face_counts_per_roll.getD 0 []).sum
      = 2 :=
  (C1_face_counts_per_roll (Analyzer.mk ([[1, 2], [2, 2]] : List (List ℤ))) 2
    (by decide)).2.2.2.2.2 _ (by decide)

/-- C2: for every analyzer snapshot, `combo_count` keys rolls by the sorted
outcome tuple and `permutation_count` keys them by the tuple in die-column
order; in both tables the count of a key is the number of rolls matching it,
and the counts sum to the number of rolls. -/
theorem C2_combo_permutation_counts [DecidableEq α] [LinearOrder α] (a : Analyzer α) :
    (∀ p ∈ a.combo_count,
      p.2 = (a.results.filter
        (fun row => List.insertionSort (fun x y => x ≤ y) row = p.1)).length) ∧
    (a.combo_count.map Prod.snd).sum = a.results.length ∧
    (∀ p ∈ a.permutation_count,
      p.2 = (a.results.filter (fun row => row = p.1)).length) ∧
    (a.permutation_count.map Prod.snd).sum = a.results.length := by
  refine ⟨?_, ?_, ?_, ?_⟩
  · intro p hp
    have h := (valueCounts_mem _ p hp).1
    rw [h, count_map_eq_filter_length]
  · rw [Analyzer.combo_count, valueCounts_sum, List.length_map]
  · intro p hp
    have h := (valueCounts_mem _ p hp).1
    have h2 := count_map_eq_filter_length (fun row : List α => row) a.results p.1
    rw [List.map_id'] at h2
    rw [h, h2]
  · rw [Analyzer.permutation_count, valueCounts_sum]

/-- Witness for C2 at the snapshot `[[2, 1], [1, 2], [1, 1]]`: the key
`[1, 2]` of `combo_count` carries count `2`, the number of rolls whose
sorted tuple is `[1, 2]`. -/
theorem C2_witness :
    ((([1, 2] : List ℤ), 2) : List ℤ × ℕ).2
      = ((Analyzer.mk ([[2, 1], [1, 2], [1, 1]] : List (List ℤ))).results.filter
          (fun row => List.insertionSort (fun x y => x ≤ y) row
            = ((([1, 2] : List ℤ), 2) : List ℤ × ℕ).1)).length :=
  (C2_combo_permutation_counts (Analyzer.mk ([[2, 1], [1, 2], [1, 1]] : List (List ℤ)))).1
    ([1, 2], 2) (by decide)

/-- C3: `jackpot` counts exactly the rolls whose outcomes are all identical
(value set of size one); the count is at most the number of rolls, and when
every roll has exactly one die it equals the number of rolls. -/
theorem C3_jackpot [DecidableEq α] (a : Analyzer α) :
    a.jackpot = (a.results.filter
      (fun row => decide (row ≠ [] ∧ ∀ x ∈ row, ∀ y ∈ row, x = y))).length ∧
    a.jackpot ≤ a.results.length ∧
    ((∀ row ∈ a.results, row.length = 1) → a.jackpot = a.results.length) := by
  refine ⟨?_, ?_, ?_⟩
  · rw [Analyzer.jackpot]
    congr 1
    apply List.filter_congr
    intro row _
    exact decide_eq_decide.mpr (dedup_length_eq_one_iff row)
  · exact List.length_filter_le _ _
  · intro h1
    rw [Analyzer.jackpot]
    have hall : ∀ row ∈ a.results, (decide (row.dedup.length = 1)) = true := by
      intro row hrow
      obtain ⟨x, hx⟩ := List.length_eq_one.mp (h1 row hrow)
      subst hx
      simp
    rw [List.filter_eq_self.mpr hall]

/-- Witness for C3 at the single-die snapshot `[[1], [2], [1]]`: every roll
of a one-die game is a jackpot. -/
theorem C3_witness :
    (Analyzer.mk ([[1], [2], [1]] : List (List ℤ))).jackpot
      = (Analyzer.mk ([[1], [2], [1]] : List (List ℤ))).results.length :=
  (C3_jackpot (Analyzer.mk ([[1], [2], [1]] : List (List ℤ)))).2.2 (by decide)

/-- C10: the rows of `combo_count` and of `permutation_count` are ordered by
non-increasing count: the count column is sorted so that each entry is at
least the one after it. -/
theorem C10_counts_sorted [DecidableEq α] [LinearOrder α] (a : Analyzer α) :
    List.Sorted (fun c1 c2 => c2 ≤ c1) (a.combo_count.map Prod.snd) ∧
    List.Sorted (fun c1 c2 => c2 ≤ c1) (a.permutation_count.map Prod.snd) :=
  ⟨List.Pairwise.map Prod.snd (fun _ _ h => h) (valueCounts_sorted _),
   List.Pairwise.map Prod.snd (fun _ _ h => h) (valueCounts_sorted _)⟩

/-- Witness for C10 at the snapshot `[[2, 1], [1, 2], [1, 1]]`. -/
theorem C10_witness :
    List.Sorted (fun c1 c2 => c2 ≤ c1)
      ((Analyzer.mk ([[2, 1], [1, 2], [1, 1]] : List (List ℤ))).combo_count.map Prod.snd) :=
  (C10_counts_sorted (Analyzer.mk ([[2, 1], [1, 2], [1, 1]] : List (List ℤ)))).1

/-- C4: for every well-formed die with at least one positively weighted face
and every positive roll count, `roll` succeeds with exactly `num_rolls`
outcomes, each of them a face of the die, and no face whose current weight
is `0` ever appears among the outcomes.  `u` ranges over the uniform draws
in `[0, 1)` consumed by the sampler. -/
theorem C4_roll_outcomes [DecidableEq α] [Inhabited α] (d : Die α) (n : ℤ) (u : ℕ → ℚ)
    (hwf : d.WF) (hn : 0 < n) (hone : ∃ p ∈ d.df, 0 < p.2)
    (hu : ∀ i, 0 ≤ u i ∧ u i < 1) :
    ∃ out, d.roll n u = .ok out ∧ out.length = n.toNat ∧
      (∀ x ∈ out, x ∈ d.df.map Prod.fst) ∧
      (∀ f, (f, (0:ℚ)) ∈ d.df → f ∉ out) := by
  obtain ⟨p, hpmem, hppos⟩ := hone
  have hnonneg : ∀ w ∈ d.df.map Prod.snd, (0:ℚ) ≤ w := by
    intro w hw
    obtain ⟨q, hq, rfl⟩ := List.mem_map.mp hw
    exact hwf.2 q hq
  have hsum : 0 < (d.df.map Prod.snd).sum := by
    have hle : p.2 ≤ (d.df.map Prod.snd).sum :=
      List.single_le_sum hnonneg p.2 (List.mem_map.mpr ⟨p, hpmem, rfl⟩)
    exact lt_of_lt_of_le hppos hle
  refine ⟨(List.range n.toNat).map
      (fun i => npChoice (d.df.map Prod.fst) (d.df.map Prod.snd) (u i)), ?_, ?_, ?_, ?_⟩
  · rw [Die.roll, if_neg (not_le.mpr hn), if_neg (ne_of_gt hsum)]
  · simp
  · intro x hx
    obtain ⟨i, _, rfl⟩ := List.mem_map.mp hx
    exact (npChoice_spec d.df (u i) hwf.1 (hu i).1 (hu i).2 hsum).1
  · intro f hf hmem
    obtain ⟨i, _, heq⟩ := List.mem_map.mp hmem
    exact (npChoice_spec d.df (u i) hwf.1 (hu i).1 (hu i).2 hsum).2 f hf heq

/-- Witness for C4 at the die with faces `1, 2` where face `2` has weight
`0`: two rolls yield two outcomes, both faces of the die, and face `2`
never appears. -/
theorem C4_witness :
    ∃ out, (Die.mk [((1:ℤ), (1:ℚ)), (2, 0)]).roll 2 (fun _ => 0) = .ok out ∧
      out.length = (2:ℤ).toNat ∧
      (∀ x ∈ out, x ∈ (Die.mk [((1:ℤ), (1:ℚ)), (2, 0)]).df.map Prod.fst) ∧
      (∀ f, (f, (0:ℚ)) ∈ (Die.mk [((1:ℤ), (1:ℚ)), (2, 0)]).df → f ∉ out) :=
  C4_roll_outcomes (Die.mk [((1:ℤ), (1:ℚ)), (2, 0)]) 2 (fun _ => 0)
    (by constructor
        · decide
        · intro p hp
          rcases List.mem_cons.mp hp with rfl | hp2
          · norm_num
          · rw [List.mem_singleton.mp hp2])
    (by norm_num)
    ⟨(1, 1), by simp, by norm_num⟩
    (fun i => ⟨le_refl 0, by norm_num⟩)

/-- C5: a die whose weights are all zero is reachable through validated
operations (construct with faces `1, 2`, then set both weights to `0`); at
that state `roll` does not perform an explicit `InvalidState` check — the
code reaches the probability normalization `weights / sum(weights)` with
`sum(weights) = 0`, and the resulting degenerate probability vector makes
`np.random.choice` raise numpy's own `ValueError`, which is a different
error than the spec's `InvalidState`. -/
theorem C5_all_zero_weights_roll :
    Die.init [(1:ℤ), 2] = .ok (Die.mk [(1, 1), (2, 1)]) ∧
    ((Die.mk [((1:ℤ), (1:ℚ)), (2, 1)]).change_weight 1 (.castable 0)).2
      = Die.mk [(1, 0), (2, 1)] ∧
    ((Die.mk [((1:ℤ), (0:ℚ)), (2, 1)]).change_weight 2 (.castable 0)).2
      = Die.mk [(1, 0), (2, 0)] ∧
    (Die.mk [((1:ℤ), (0:ℚ)), (2, 0)]).roll 1 (fun _ => 0) = .error .numpyValueError ∧
    PyErr.numpyValueError ≠ PyErr.invalidState := by
  refine ⟨rfl, by decide, by decide, ?_, by decide⟩
  simp [Die.roll]

/-- C7: failed operations never leave a partial mutation behind: whenever
`change_weight` or `play` raises, the returned object state equals the state
before the call (the other operations — both constructors, `roll`, `show` —
never write to an existing object at all, as their embeddings read their
inputs purely). -/
theorem C7_atomicity (α : Type) [DecidableEq α] [Inhabited α] :
    (∀ (d : Die α) (face : α) (w : WeightInput) (e : PyErr),
      (d.change_weight face w).1 = .error e → (d.change_weight face w).2 = d) ∧
    (∀ (g : Game α) (n : ℤ) (u : ℕ → ℕ → ℚ) (e : PyErr),
      (g.play n u).1 = .error e → (g.play n u).2 = g) := by
  constructor
  · intro d face w e h
    by_cases hmem : face ∈ d.df.map Prod.fst
    · cases w with
      | uncastable => simp [Die.change_weight, hmem]
      | castable q =>
        by_cases hq : q < 0
        · simp [Die.change_weight, hmem, hq]
        · simp [Die.change_weight, hmem, hq] at h
    · simp [Die.change_weight, hmem]
  · intro g n u e h
    by_cases hn : n ≤ 0
    · simp [Game.play, hn]
    · cases hcols : Game.rollDice n u g.dice 0 with
      | error e2 => simp [Game.play, hn, hcols]
      | ok cols => simp [Game.play, hn, hcols] at h

/-- Witness for C7: changing the weight of the absent face `2` raises
`IndexError` and leaves the die exactly as it was. -/
theorem C7_witness :
    ((Die.mk [((1:ℤ), (1:ℚ))]).change_weight 2 (.castable 5)).2
      = Die.mk [((1:ℤ), (1:ℚ))] :=
  (C7_atomicity ℤ).1 (Die.mk [((1:ℤ), (1:ℚ))]) 2 (.castable 5) .indexError rfl

theorem find?_map_upd_eq [DecidableEq α] (l : List (α × ℚ)) (face : α) (q : ℚ)
    (hmem : face ∈ l.map Prod.fst) :
    (l.map (fun p => if p.1 = face then (p.1, q) else p)).find?
      (fun p => p.1 = face) = some (face, q) := by
  induction l with
  | nil => cases hmem
  | cons p ps ih =>
    rw [List.map_cons]
    by_cases hp : p.1 = face
    · rw [List.find?_cons_of_pos _ (by simp [hp])]
      simp [hp]
    · rw [List.find?_cons_of_neg _ (by simp [hp])]
      apply ih
      rcases List.mem_cons.mp hmem with heq | h2
      · exact absurd heq.symm hp
      · exact h2

theorem find?_map_upd_ne [DecidableEq α] (l : List (α × ℚ)) (face f2 : α) (q : ℚ)
    (hne : f2 ≠ face) :
    (l.map (fun p => if p.1 = face then (p.1, q) else p)).find? (fun p => p.1 = f2)
      = l.find? (fun p => p.1 = f2) := by
  induction l with
  | nil => rfl
  | cons p ps ih =>
    rw [List.map_cons]
    by_cases hp : p.1 = face
    · have hnp : ¬ p.1 = f2 := fun h => hne (h ▸ hp)
      have hne2 : ¬ face = f2 := fun h => hne h.symm
      rw [List.find?_cons_of_neg _ (by simp [hp, hnp, hne2]),
        List.find?_cons_of_neg _ (by simp [hnp])]
      exact ih
    · by_cases hp2 : p.1 = f2
      · rw [List.find?_cons_of_pos _ (by simp [hp, hp2, hne]),
          List.find?_cons_of_pos _ (by simp [hp2])]
        simp [hp]
      · rw [List.find?_cons_of_neg _ (by simp [hp, hp2, hne]),
          List.find?_cons_of_neg _ (by simp [hp2])]
        exact ih

theorem change_weight_ok [DecidableEq α] (d : Die α) (face : α) (q : ℚ)
    (hmem : face ∈ d.df.map Prod.fst) (hq2 : ¬ q < 0) :
    d.change_weight face (.castable q)
      = (.ok (), ⟨d.df.map (fun p => if p.1 = face then (p.1, q) else p)⟩) := by
  unfold Die.change_weight
  rw [if_pos hmem]
  exact if_neg hq2

/-- C8: a valid `change_weight` succeeds and replaces only the targeted
face's weight: afterwards `weightOf` reports the new weight at that face
and the old weight at every other face, the face column is untouched, and
repeating the same `change_weight` leaves the die unchanged (idempotence). -/
theorem C8_change_weight_frame [DecidableEq α] (d : Die α) (face : α) (q : ℚ)
    (hmem : face ∈ d.df.map Prod.fst) (hq : 0 ≤ q) :
    (d.change_weight face (.castable q)).1 = .ok () ∧
    (d.change_weight face (.castable q)).2.weightOf face = some q ∧
    (∀ f2, f2 ≠ face →
      (d.change_weight face (.castable q)).2.weightOf f2 = d.weightOf f2) ∧
    (d.change_weight face (.castable q)).2.df.map Prod.fst = d.df.map Prod.fst ∧
    ((d.change_weight face (.castable q)).2.change_weight face (.castable q)).2
      = (d.change_weight face (.castable q)).2 := by
  have hq2 : ¬ q < 0 := not_lt.mpr hq
  have hcw : d.change_weight face (.castable q)
      = (.ok (), ⟨d.df.map (fun p => if p.1 = face then (p.1, q) else p)⟩) :=
    change_weight_ok d face q hmem hq2
  have hfst : (d.df.map (fun p => if p.1 = face then (p.1, q) else p)).map Prod.fst
      = d.df.map Prod.fst := by
    rw [List.map_map]
    apply List.map_congr_left
    intro p _
    by_cases hp : p.1 = face
    · simp [hp, Function.comp]
    · simp [hp, Function.comp]
  refine ⟨by rw [hcw], ?_, ?_, ?_, ?_⟩
  · rw [hcw, Die.weightOf]
    simp only
    rw [find?_map_upd_eq d.df face q hmem]
    rfl
  · intro f2 hne
    rw [hcw, Die.weightOf, Die.weightOf]
    simp only
    rw [find?_map_upd_ne d.df face f2 q hne]
  · rw [hcw]
    exact hfst
  · rw [hcw]
    have hmem2 : face ∈ (d.df.map (fun p => if p.1 = face then (p.1, q) else p)).map
        Prod.fst := by
      rw [hfst]
      exact hmem
    have hcw2 : (Die.mk (d.df.map (fun p => if p.1 = face then (p.1, q) else p))).change_weight
        face (.castable q)
        = (.ok (), ⟨(d.df.map (fun p => if p.1 = face then (p.1, q) else p)).map
            (fun p => if p.1 = face then (p.1, q) else p)⟩) :=
      change_weight_ok (Die.mk (d.df.map (fun p => if p.1 = face then (p.1, q) else p)))
        face q hmem2 hq2
    rw [hcw2]
    simp only [Die.mk.injEq]
    rw [List.map_map]
    apply List.map_congr_left
    intro p _
    by_cases hp : p.1 = face
    · simp [hp, Function.comp]
    · simp [hp, Function.comp]

/-- Witness for C8 at the fair two-faced die, setting the weight of face `1`
to `5`: `weightOf` reports the new weight at that face. -/
theorem C8_witness :
    ((Die.mk [((1:ℤ), (1:ℚ)), (2, 1)]).change_weight 1 (.castable 5)).2.weightOf 1
      = some 5 :=
  (C8_change_weight_frame (Die.mk [((1:ℤ), (1:ℚ)), (2, 1)]) 1 5 (by decide)
    (by norm_num)).2.1

theorem stackRows_length (t : List (List α)) : ∀ r0 : ℕ,
    (stackRows r0 t).length = (t.map List.length).sum := by
  induction t with
  | nil =>
    intro r0
    rfl
  | cons row rest ih =>
    intro r0
    simp [stackRows, ih (r0 + 1)]

/-- C6: after a successful `play(n)` on a game with `d` dice, the wide
`show` table has `n` rows of `d` cells each; the narrow `show` table is the
row-major flattening with two-level key `(roll number, die number)` — rolls
ascending, dice ascending within each roll — and one outcome cell per
entry, hence exactly `n * d` rows. -/
theorem C6_play_show_shapes [DecidableEq α] [Inhabited α] (g : Game α) (n : ℤ)
    (u : ℕ → ℕ → ℚ) (d : ℕ) (hd : g.dice.length = d)
    (hok : (g.play n u).1 = .ok ()) :
    ∃ t, (g.play n u).2.results = some t ∧
      t.length = n.toNat ∧
      (∀ row ∈ t, row.length = d) ∧
      (g.play n u).2.show Form.wide = .ok (ShowResult.wideTable t) ∧
      (g.play n u).2.show Form.narrow = .ok (ShowResult.narrowTable (stackRows 0 t)) ∧
      stackRows 0 t = (List.range n.toNat).flatMap
        (fun r => (List.range d).map
          (fun i => ((r, i), (t.getD r []).getD i default))) ∧
      (stackRows 0 t).length = n.toNat * d := by
  by_cases hn : n ≤ 0
  · simp [Game.play, hn] at hok
  · cases hcols : Game.rollDice n u g.dice 0 with
    | error e =>
      simp [Game.play, hn, hcols] at hok
    | ok cols =>
      have hplay : (g.play n u).2
          = { g with results := some (tableOfCols n.toNat cols) } := by
        simp [Game.play, hn, hcols]
      have hcl : cols.length = d := by
        rw [rollDice_ok_length n u g.dice 0 cols hcols, hd]
      have hlen : (tableOfCols n.toNat cols).length = n.toNat := by
        simp [tableOfCols]
      have hrows : ∀ row ∈ tableOfCols n.toNat cols, row.length = d := by
        intro row hrow
        simp only [tableOfCols, List.mem_map] at hrow
        obtain ⟨r, _, rfl⟩ := hrow
        simp [hcl]
      have hcanon := stackRows_eq_canonical (tableOfCols n.toNat cols) d hrows 0
      refine ⟨tableOfCols n.toNat cols, ?_, hlen, hrows, ?_, ?_, ?_, ?_⟩
      · rw [hplay]
      · rw [hplay]
        rfl
      · rw [hplay]
        rfl
      · rw [hcanon, hlen]
        congr 1
        funext r
        simp
      · rw [stackRows_length]
        have hrep : (tableOfCols n.toNat cols).map List.length
            = List.replicate n.toNat d := by
          rw [List.eq_replicate_iff]
          constructor
          · simp [hlen]
          · intro b hb
            obtain ⟨row, hrow, rfl⟩ := List.mem_map.mp hb
            exact hrows row hrow
        rw [hrep, List.sum_replicate, smul_eq_mul]

/-- Witness for C6: a one-die game played twice with the constant draw `0`. -/
theorem C6_witness :
    ∃ t, ((Game.mk [Die.mk [((1:ℤ), (1:ℚ))]] none).play 2 (fun _ _ => 0)).2.results
        = some t ∧
      t.length = (2:ℤ).toNat ∧
      (∀ row ∈ t, row.length = 1) ∧
      ((Game.mk [Die.mk [((1:ℤ), (1:ℚ))]] none).play 2 (fun _ _ => 0)).2.show Form.wide
        = .ok (ShowResult.wideTable t) ∧
      ((Game.mk [Die.mk [((1:ℤ), (1:ℚ))]] none).play 2 (fun _ _ => 0)).2.show Form.narrow
        = .ok (ShowResult.narrowTable (stackRows 0 t)) ∧
      stackRows 0 t = (List.range (2:ℤ).toNat).flatMap
        (fun r => (List.range 1).map
          (fun i => ((r, i), (t.getD r []).getD i default))) ∧
      (stackRows 0 t).length = (2:ℤ).toNat * 1 :=
  C6_play_show_shapes (Game.mk [Die.mk [((1:ℤ), (1:ℚ))]] none) 2 (fun _ _ => 0) 1 rfl
    (by simp [Game.play, Game.rollDice, Die.roll, npChoice, chooseIdx])

theorem playH_preserves_lookup [DecidableEq α] [Inhabited α] (g : GameRef α)
    (h : RHeap α) (n : ℤ) (u : ℕ → ℕ → ℚ) (res : Except PyErr Unit)
    (g2 : GameRef α) (h2 : RHeap α) (hp : g.playH h n u = (res, g2, h2)) :
    ∀ a, a < List.length h → h2.lookup a = h.lookup a := by
  intro a ha
  by_cases hn : n ≤ 0
  · simp only [GameRef.playH, if_pos hn] at hp
    injection hp with h1a h1b
    injection h1b with h2a h2b
    subst h2b
    rfl
  · cases hcols : Game.rollDice n u g.dice 0 with
    | error e =>
      simp only [GameRef.playH, if_neg hn, hcols] at hp
      injection hp with h1a h1b
      injection h1b with h2a h2b
      subst h2b
      rfl
    | ok cols =>
      simp only [GameRef.playH, if_neg hn, hcols, RHeap.alloc] at hp
      injection hp with h1a h1b
      injection h1b with h2a h2b
      subst h2b
      rw [RHeap.lookup, RHeap.lookup]
      exact List.getElem?_append_left ha

/-- C9: the analyzer's snapshot is an independent copy of the game's wide
results as of construction: `Analyzer.__init__` stores the freshly allocated
copy returned by `game.show('wide')`, and a later `play` on the same game
allocates a new frame and rebinds only the game's own reference — the
analyzer's stored table, and every statistic computed from it afterwards,
is exactly the table the game had when the analyzer was built. -/
theorem C9_snapshot_independence [DecidableEq α] [Inhabited α] [LinearOrder α]
    (g : GameRef α) (h0 : RHeap α) (an : AnalyzerRef) (h1 : RHeap α)
    (hinit : AnalyzerRef.initH g h0 = .ok (an, h1))
    (n : ℤ) (u : ℕ → ℕ → ℚ) (res : Except PyErr Unit) (g2 : GameRef α) (h2 : RHeap α)
    (hplay : g.playH h1 n u = (res, g2, h2)) :
    ∃ t0, g.resultsAddr.bind h0.lookup = some t0 ∧
      an.resultsIn h1 = t0 ∧
      an.resultsIn h2 = t0 ∧
      (Analyzer.mk (an.resultsIn h2)).jackpot = (Analyzer.mk t0).jackpot ∧
      (Analyzer.mk (an.resultsIn h2)).face_counts_per_roll
        = (Analyzer.mk t0).face_counts_per_roll ∧
      (Analyzer.mk (an.resultsIn h2)).combo_count = (Analyzer.mk t0).combo_count ∧
      (Analyzer.mk (an.resultsIn h2)).permutation_count
        = (Analyzer.mk t0).permutation_count := by
  cases haddr : g.resultsAddr with
  | none =>
    simp [AnalyzerRef.initH, GameRef.showWideH, haddr] at hinit
  | some addr =>
    cases hlook : h0.lookup addr with
    | none =>
      simp [AnalyzerRef.initH, GameRef.showWideH, haddr, hlook] at hinit
    | some t0 =>
      simp only [AnalyzerRef.initH, GameRef.showWideH, haddr, hlook, RHeap.alloc] at hinit
      injection hinit with hpair
      injection hpair with han hh1
      subst hh1
      subst han
      have hlk1 : RHeap.lookup (List.append h0 [t0]) (List.length h0) = some t0 := by
        rw [RHeap.lookup]
        exact List.getElem?_concat_length h0 t0
      have ha_lt : List.length h0 < List.length (List.append h0 [t0]) := by
        simp
      have hpres := playH_preserves_lookup g (List.append h0 [t0]) n u res g2 h2 hplay
        (List.length h0) ha_lt
      have hres1 : AnalyzerRef.resultsIn ⟨List.length h0⟩ (List.append h0 [t0]) = t0 := by
        rw [AnalyzerRef.resultsIn]
        simp only [hlk1]
        rfl
      have hres2 : AnalyzerRef.resultsIn ⟨List.length h0⟩ h2 = t0 := by
        rw [AnalyzerRef.resultsIn]
        simp only [hpres, hlk1]
        rfl
      refine ⟨t0, ?_, hres1, hres2, ?_, ?_, ?_, ?_⟩
      · simp [haddr, hlook]
      · rw [hres2]
      · rw [hres2]
      · rw [hres2]
      · rw [hres2]

/-- Witness for C9: a game whose results table sits at heap address `0`; the
analyzer snapshots it (copy at address `1`), then the game is replayed; the
analyzer's dereferenced table is still the snapshot. -/
theorem C9_witness :
    ∃ t0, (GameRef.mk [Die.mk [((1:ℤ), (1:ℚ))]] (some 0)).resultsAddr.bind
        (RHeap.lookup ([[[1], [1]]] : RHeap ℤ)) = some t0 ∧
      AnalyzerRef.resultsIn ⟨1⟩ ([[[1], [1]], [[1], [1]]] : RHeap ℤ) = t0 ∧
      AnalyzerRef.resultsIn ⟨1⟩ ([[[1], [1]], [[1], [1]], [[1], [1], [1]]] : RHeap ℤ) = t0 ∧
      (Analyzer.mk (AnalyzerRef.resultsIn ⟨1⟩
          ([[[1], [1]], [[1], [1]], [[1], [1], [1]]] : RHeap ℤ))).jackpot
        = (Analyzer.mk t0).jackpot ∧
      (Analyzer.mk (AnalyzerRef.resultsIn ⟨1⟩
          ([[[1], [1]], [[1], [1]], [[1], [1], [1]]] : RHeap ℤ))).face_counts_per_roll
        = (Analyzer.mk t0).face_counts_per_roll ∧
      (Analyzer.mk (AnalyzerRef.resultsIn ⟨1⟩
          ([[[1], [1]], [[1], [1]], [[1], [1], [1]]] : RHeap ℤ))).combo_count
        = (Analyzer.mk t0).combo_count ∧
      (Analyzer.mk (AnalyzerRef.resultsIn ⟨1⟩
          ([[[1], [1]], [[1], [1]], [[1], [1], [1]]] : RHeap ℤ))).permutation_count
        = (Analyzer.mk t0).permutation_count :=
  C9_snapshot_independence (GameRef.mk [Die.mk [((1:ℤ), (1:ℚ))]] (some 0)) [[[1], [1]]]
    ⟨1⟩ [[[1], [1]], [[1], [1]]] rfl 3 (fun _ _ => 0) (.ok ())
    (GameRef.mk [Die.mk [((1:ℤ), (1:ℚ))]] (some 2))
    [[[1], [1]], [[1], [1]], [[1], [1], [1]]]
    (by simp [GameRef.playH, Game.rollDice, Die.roll, npChoice, chooseIdx, RHeap.alloc,
      tableOfCols, List.range_succ])
